import Mathlib

/-!
Verification of the Indicator Engine of the crypto-analysis dashboard.

The repository ships `main.py` (the Streamlit dashboard) which calls the
indicator engine `technical_indicators` (module `technical_indicators.py`,
not present in the sources).  The engine's operations are therefore
modelled from the specification (`spec.md`, sections 4.1-4.6), while the
call sites in `main.py` (chart plotting and the Technical Analysis
Summary) are embedded from the source directly.

Conventions of the embedding:
- prices are rationals (`ℚ`), exact stand-ins for the Python floats;
- an indicator series is a `List (Option ℚ)`, positionally aligned with
  the input closes; `none` is the explicit "undefined" marker the spec
  requires for positions lacking sufficient lookback;
- window parameters arrive as `ℤ` so that the spec's "fails when `w ≤ 0`"
  is expressible; fallible operations return `Except TIError`.
-/

/-- Error taxonomy of spec section 7: a non-positive window parameter and an
empty input series where at least one point is required. -/
inductive TIError where
  | invalidWindowError
  | emptySeriesError
deriving DecidableEq

deriving instance DecidableEq for Except

/-- An indicator series: one optional value per input position. -/
abbrev Series := List (Option ℚ)

/-- Arithmetic mean of a list of rationals (sum divided by length). -/
def mean (l : List ℚ) : ℚ := l.sum / l.length

/-- Modelled from the spec: the trailing window of `w` closes ending at
index `i`, namely `closes[i-w+1 .. i]` (spec section 4.1). -/
def windowAt (closes : List ℚ) (w i : ℕ) : List ℚ :=
  (closes.drop (i + 1 - w)).take w

/-- Modelled from the spec: SMA value at index `i` — the arithmetic mean of
the closes in `[i-w+1, i]` (spec section 4.1). -/
def smaAt (closes : List ℚ) (w i : ℕ) : ℚ := mean (windowAt closes w i)

/-- Modelled from the spec: the SMA series over `closes` with window `w`:
defined (`some`) at index `i` iff `i ≥ w-1`, i.e. `w ≤ i+1` (spec
section 4.1). -/
def smaCore (closes : List ℚ) (w : ℕ) : Series :=
  (List.range closes.length).map
    (fun i => if w ≤ i + 1 then some (smaAt closes w i) else none)

/-- Modelled from the spec: `technical_indicators.calculate_ma` (module
`technical_indicators.py` is not in the sources; `main.py` calls it at
lines 44-45 and 230-231).  Fails with `InvalidWindowError` when `w ≤ 0`,
otherwise returns the SMA series (spec section 4.1). -/
def calculate_ma (closes : List ℚ) (w : ℤ) : Except TIError Series :=
  if w ≤ 0 then .error .invalidWindowError else .ok (smaCore closes w.toNat)

/-- Number of leading undefined positions of a series. -/
def leadNoneCount (l : Series) : ℕ := (l.takeWhile Option.isNone).length

/-- Modelled from the spec: the EMA smoothing factor `α = 2/(w+1)`
(spec section 4.2). -/
def emaAlpha (w : ℕ) : ℚ := 2 / ((w : ℚ) + 1)

/-- Modelled from the spec: the defined EMA values.  `emaVal a seed rest j`
is the EMA at offset `j` past the seed position: the seed itself at
`j = 0`, and `a·close + (1-a)·previous` afterwards (spec section 4.2). -/
def emaVal (a seed : ℚ) (rest : List ℚ) : ℕ → ℚ
  | 0 => seed
  | j + 1 => a * rest.getD j 0 + (1 - a) * emaVal a seed rest j

/-- Modelled from the spec: the EMA series with window `w`: undefined
before index `w-1`, seeded at `w-1` with the SMA of the first `w` closes,
then recursively smoothed; all-undefined when the series is shorter than
the window (spec sections 4.2 and 7). -/
def emaCore (closes : List ℚ) (w : ℕ) : Series :=
  if w = 0 ∨ closes.length < w then List.replicate closes.length none
  else
    List.replicate (w - 1) none ++
      (List.range (closes.length - w + 1)).map
        (fun j => some (emaVal (emaAlpha w) (mean (closes.take w)) (closes.drop w) j))

/-- Modelled from the spec: `technical_indicators.calculate_ema` (module
`technical_indicators.py` is not in the sources; `main.py` calls it at
line 62).  Window validation as for the SMA (spec sections 4.2 and 7). -/
def calculate_ema (closes : List ℚ) (w : ℤ) : Except TIError Series :=
  if w ≤ 0 then .error .invalidWindowError else .ok (emaCore closes w.toNat)

/-- Modelled from the spec: per-step gains `gain[i] = max(delta[i], 0)`
with `delta[i] = close[i] - close[i-1]`; entry `j` of the result is the
gain of delta index `j+1` (spec section 4.4). -/
def gains (closes : List ℚ) : List ℚ :=
  (closes.zip closes.tail).map (fun p => max (p.2 - p.1) 0)

/-- Modelled from the spec: per-step losses `loss[i] = max(-delta[i], 0)`
(spec section 4.4). -/
def losses (closes : List ℚ) : List ℚ :=
  (closes.zip closes.tail).map (fun p => max (p.1 - p.2) 0)

/-- Modelled from the spec: one Wilder smoothing step,
`(prev·(w-1) + x) / w` (spec section 4.4). -/
def wilderStep (w : ℕ) (prev x : ℚ) : ℚ := (prev * ((w : ℚ) - 1) + x) / w

/-- Wilder-smoothed running averages after the seed. -/
def wilderFrom (w : ℕ) (prev : ℚ) : List ℚ → List ℚ
  | [] => []
  | x :: xs => wilderStep w prev x :: wilderFrom w (wilderStep w prev x) xs

/-- Modelled from the spec: the Wilder average sequence over `xs`: seeded
with the mean of the first `w` entries, then smoothed; empty when there
are fewer than `w` entries (spec section 4.4). -/
def wilderAvgs (w : ℕ) (xs : List ℚ) : List ℚ :=
  if 0 < w ∧ w ≤ xs.length then
    mean (xs.take w) :: wilderFrom w (mean (xs.take w)) (xs.drop w)
  else []

/-- The per-defined-position `(avgGain, avgLoss)` pairs of the RSI. -/
def rsiAvgPairs (closes : List ℚ) (w : ℕ) : List (ℚ × ℚ) :=
  (wilderAvgs w (gains closes)).zip (wilderAvgs w (losses closes))

/-- Modelled from the spec: RSI value from the smoothed averages, with the
edge policy of spec section 4.4: `avgLoss = 0` yields `100` when
`avgGain > 0` and the neutral `50` when both are zero; otherwise
`RSI = 100 - 100/(1+RS)` with `RS = avgGain/avgLoss`. -/
def rsiFromAvg (g l : ℚ) : ℚ :=
  if l = 0 then (if 0 < g then 100 else 50) else 100 - 100 / (1 + g / l)

/-- Modelled from the spec: `technical_indicators.calculate_rsi` (module
`technical_indicators.py` is not in the sources; `main.py` calls it at
lines 179 and 232).  Parameter validation first, then the empty-series
check; positions `0..w-1` (clipped to the length) are undefined, the rest
carry the RSI of the Wilder averages (spec sections 4.4 and 7). -/
def calculate_rsi (closes : List ℚ) (w : ℤ) : Except TIError Series :=
  if w ≤ 0 then .error .invalidWindowError
  else if closes = [] then .error .emptySeriesError
  else .ok (List.replicate (min w.toNat closes.length) none ++
    (rsiAvgPairs closes w.toNat).map (fun p => some (rsiFromAvg p.1 p.2)))

/-- Modelled from the spec: the host language's numeric square root used
for the rolling standard deviation (spec section 4.1/4.3).  The exact
square root is not a rational operation, so the embedding abstracts it as
any function returning a nonnegative result — the property `stddev ≥ 0`
that the spec's band-ordering guarantee rests on. -/
structure SqrtFn where
  f : ℚ → ℚ
  nonneg : ∀ q, 0 ≤ f q

/-- Modelled from the spec: rolling population variance at index `i`: mean
squared deviation from the rolling mean over the same window, dividing by
`w` (population formula, spec section 4.1). -/
def rollingVarAt (closes : List ℚ) (w i : ℕ) : ℚ :=
  ((windowAt closes w i).map (fun x => (x - smaAt closes w i) ^ 2)).sum / w

/-- Modelled from the spec: the upper Bollinger band
`middle + k·stddev` (spec section 4.3). -/
def bollingerUpper (s : SqrtFn) (closes : List ℚ) (w : ℕ) (k : ℚ) : Series :=
  (List.range closes.length).map
    (fun i => if w ≤ i + 1 then
      some (smaAt closes w i + k * s.f (rollingVarAt closes w i)) else none)

/-- Modelled from the spec: the lower Bollinger band
`middle - k·stddev` (spec section 4.3). -/
def bollingerLower (s : SqrtFn) (closes : List ℚ) (w : ℕ) (k : ℚ) : Series :=
  (List.range closes.length).map
    (fun i => if w ≤ i + 1 then
      some (smaAt closes w i - k * s.f (rollingVarAt closes w i)) else none)

/-- Modelled from the spec: `technical_indicators.calculate_bollinger_bands`
(module `technical_indicators.py` is not in the sources; `main.py`
destructures its result as `upper, middle, lower` at line 72; defaults
`w = 20`, `k = 2`).  Returns `(upper, middle, lower)`; the middle band
is the SMA (spec section 4.3). -/
def calculate_bollinger_bands (s : SqrtFn) (closes : List ℚ) (w : ℤ) (k : ℚ) :
    Except TIError (Series × Series × Series) :=
  if w ≤ 0 then .error .invalidWindowError
  else .ok (bollingerUpper s closes w.toNat k, smaCore closes w.toNat,
    bollingerLower s closes w.toNat k)

/-- A concrete `SqrtFn` instance used to evaluate the bands on sample
data (any nonnegative-valued function qualifies). -/
def demoSqrt : SqrtFn := ⟨fun q => max q 0, fun q => le_max_right q 0⟩

/-- Pointwise difference of two indicator series: defined with value
`x - y` where both operands are defined, undefined otherwise. -/
def optZipSub (a b : Series) : Series :=
  List.zipWith (fun x y =>
    match x, y with
    | some u, some v => some (u - v)
    | _, _ => none) a b

/-- Modelled from the spec: the MACD line
`EMA(close, fast) - EMA(close, slow)` pointwise, undefined wherever either
operand is (spec section 4.5). -/
def macdLineOf (closes : List ℚ) (fast slow : ℕ) : Series :=
  optZipSub (emaCore closes fast) (emaCore closes slow)

/-- The values of the defined suffix of a series. -/
def definedVals (l : Series) : List ℚ :=
  (l.dropWhile Option.isNone).filterMap id

/-- Modelled from the spec: the MACD signal line — the EMA (window `sig`)
of the defined suffix of the MACD line, realigned under the MACD line's
undefined positions (spec section 4.5). -/
def signalLineOf (closes : List ℚ) (fast slow sig : ℕ) : Series :=
  List.replicate (leadNoneCount (macdLineOf closes fast slow)) none ++
    emaCore (definedVals (macdLineOf closes fast slow)) sig

/-- Modelled from the spec: `technical_indicators.calculate_macd` (module
`technical_indicators.py` is not in the sources; `main.py` destructures
its result as `macd, signal, hist` at line 188; defaults 12/26/9).
Returns `(macdLine, signalLine, histogram)` with
`histogram = macdLine - signalLine` pointwise (spec section 4.5). -/
def calculate_macd (closes : List ℚ) (fast slow sig : ℤ) :
    Except TIError (Series × Series × Series) :=
  if fast ≤ 0 ∨ slow ≤ 0 ∨ sig ≤ 0 then .error .invalidWindowError
  else .ok (macdLineOf closes fast.toNat slow.toNat,
    signalLineOf closes fast.toNat slow.toNat sig.toNat,
    optZipSub (macdLineOf closes fast.toNat slow.toNat)
      (signalLineOf closes fast.toNat slow.toNat sig.toNat))

/-- A series whose undefined positions form a (possibly empty) prefix:
either all positions are defined, or the head is undefined and the rest
has the same shape.  Every indicator series built here has this shape. -/
inductive NoneThenSome : Series → Prop
  | allSome (v : List ℚ) : NoneThenSome (v.map some)
  | consNone {t : Series} : NoneThenSome t → NoneThenSome (none :: t)

/-- The kind of a detected level (spec section 3). -/
inductive LevelKind where
  | support
  | resistance

/-- Modelled from the spec: a detected support/resistance level — `value`
(cluster mean price), `strength` (cluster size, the touch count) and
`lastTouchIndex` (most recent contributing pivot index, for tie-breaking)
(spec section 3). -/
structure Level where
  kind : LevelKind
  value : ℚ
  strength : ℕ
  lastTouchIndex : ℕ

/-- One OHLCV bar (spec section 3); `openPrice` renders the spec's `open`
field, renamed because `open` is a Lean keyword. -/
structure OHLCV where
  timestamp : ℤ
  openPrice : ℚ
  high : ℚ
  low : ℚ
  close : ℚ
  volume : ℚ

/-- The current close: the close of the last bar (0 for the empty series,
which produces no candidates anyway). -/
def currentClose (df : List OHLCV) : ℚ := (df.map OHLCV.close).getLastD 0

/-- Modelled from the spec: the swing-high test — index `i` has the full
`±k` window in range and `high[i]` is its strict maximum (spec
section 4.6 step 1). -/
def isSwingHigh (hs : List ℚ) (k i : ℕ) : Prop :=
  k ≤ i ∧ i + k < hs.length ∧
    ∀ j ∈ List.range (2 * k + 1),
      i - k + j = i ∨ hs.getD (i - k + j) 0 < hs.getD i 0

/-- Modelled from the spec: the swing-low test — `low[i]` is the strict
minimum of its `±k` window (spec section 4.6 step 1). -/
def isSwingLow (ls : List ℚ) (k i : ℕ) : Prop :=
  k ≤ i ∧ i + k < ls.length ∧
    ∀ j ∈ List.range (2 * k + 1),
      i - k + j = i ∨ ls.getD i 0 < ls.getD (i - k + j) 0

instance (hs : List ℚ) (k i : ℕ) : Decidable (isSwingHigh hs k i) := by
  unfold isSwingHigh
  infer_instance

instance (ls : List ℚ) (k i : ℕ) : Decidable (isSwingLow ls k i) := by
  unfold isSwingLow
  infer_instance

/-- Modelled from the spec: resistance candidates — all swing highs,
tagged with their price and source index (spec section 4.6 step 1). -/
def swingHighCands (df : List OHLCV) (k : ℕ) : List (ℚ × ℕ) :=
  (List.range df.length).filterMap
    (fun i => if isSwingHigh (df.map OHLCV.high) k i then
      some ((df.map OHLCV.high).getD i 0, i) else none)

/-- Modelled from the spec: support candidates — all swing lows, tagged
with their price and source index (spec section 4.6 step 1). -/
def swingLowCands (df : List OHLCV) (k : ℕ) : List (ℚ × ℕ) :=
  (List.range df.length).filterMap
    (fun i => if isSwingLow (df.map OHLCV.low) k i then
      some ((df.map OHLCV.low).getD i 0, i) else none)

/-- A cluster of nearby pivot prices: running sum, size and most recent
source index (spec section 4.6 step 2). -/
structure Cluster where
  total : ℚ
  size : ℕ
  lastIdx : ℕ

/-- The cluster's running mean. -/
def Cluster.mean (c : Cluster) : ℚ := c.total / c.size

/-- A fresh one-element cluster. -/
def Cluster.single (p : ℚ) (i : ℕ) : Cluster := ⟨p, 1, i⟩

/-- Merge one more candidate into the cluster. -/
def Cluster.push (c : Cluster) (p : ℚ) (i : ℕ) : Cluster :=
  ⟨c.total + p, c.size + 1, max c.lastIdx i⟩

/-- Modelled from the spec: the greedy merge over price-sorted candidates —
extend the current cluster while the next price is within `tol` of the
cluster's running mean, otherwise emit it and start a new one (spec
section 4.6 step 2). -/
def clusterGo (tol : ℚ) (cur : Cluster) : List (ℚ × ℕ) → List Cluster
  | [] => [cur]
  | c :: rest =>
    if |c.1 - cur.mean| ≤ tol then clusterGo tol (cur.push c.1 c.2) rest
    else cur :: clusterGo tol (Cluster.single c.1 c.2) rest

/-- Clustering of a price-sorted candidate list (spec section 4.6
step 2). -/
def clustersOf (tol : ℚ) : List (ℚ × ℕ) → List Cluster
  | [] => []
  | c :: rest => clusterGo tol (Cluster.single c.1 c.2) rest

/-- Candidate order by price, used to sort before clustering (spec
section 4.6 step 2). -/
def priceOrder (a b : ℚ × ℕ) : Prop := a.1 ≤ b.1

instance : DecidableRel priceOrder := fun a b =>
  inferInstanceAs (Decidable (a.1 ≤ b.1))

/-- Modelled from the spec: the ranking order of spec section 4.6 step 4 —
descending strength, ties broken by descending `lastTouchIndex` (more
recent wins). -/
def rankRel (a b : Level) : Prop :=
  b.strength < a.strength ∨
    (a.strength = b.strength ∧ b.lastTouchIndex ≤ a.lastTouchIndex)

instance : DecidableRel rankRel := fun a b =>
  inferInstanceAs (Decidable (b.strength < a.strength ∨
    (a.strength = b.strength ∧ b.lastTouchIndex ≤ a.lastTouchIndex)))

instance : IsTotal Level rankRel :=
  ⟨fun a b => by unfold rankRel; omega⟩

instance : IsTrans Level rankRel :=
  ⟨fun a b c hab hbc => by unfold rankRel at hab hbc ⊢; omega⟩

/-- A cluster as a `Level` of the given kind: value is the cluster mean,
strength the cluster size, `lastTouchIndex` the most recent source index
(spec section 4.6 step 2). -/
def clusterLevel (kd : LevelKind) (c : Cluster) : Level :=
  ⟨kd, c.mean, c.size, c.lastIdx⟩

/-- Support levels: clusters of the price-sorted swing-low candidates,
with tolerance `tau · currentClose` (spec section 4.6 step 2). -/
def srSupportLevels (df : List OHLCV) (k : ℕ) (tau : ℚ) : List Level :=
  (clustersOf (tau * currentClose df)
    (List.insertionSort priceOrder (swingLowCands df k))).map
    (clusterLevel .support)

/-- Resistance levels from the swing-high candidates. -/
def srResistanceLevels (df : List OHLCV) (k : ℕ) (tau : ℚ) : List Level :=
  (clustersOf (tau * currentClose df)
    (List.insertionSort priceOrder (swingHighCands df k))).map
    (clusterLevel .resistance)

/-- Support clusters surviving classification: `value < currentClose`
(spec section 4.6 step 3). -/
def srSurvivingSupports (df : List OHLCV) (k : ℕ) (tau : ℚ) : List Level :=
  (srSupportLevels df k tau).filter
    (fun l => decide (l.value < currentClose df))

/-- Resistance clusters surviving classification: `value > currentClose`
(spec section 4.6 step 3). -/
def srSurvivingResistances (df : List OHLCV) (k : ℕ) (tau : ℚ) : List Level :=
  (srResistanceLevels df k tau).filter
    (fun l => decide (currentClose df < l.value))

/-- Modelled from the spec:
`technical_indicators.identify_support_resistance` (module
`technical_indicators.py` is not in the sources; `main.py` calls it at
lines 89 and 243; defaults `k = 5`, `τ = 1%`, `N = 3`).  Pivot detection,
price-sorted greedy clustering, classification against the current close,
ranking by descending strength with recency tie-break, and the top-`N`
cut (spec section 4.6). -/
def identify_support_resistance (df : List OHLCV) (k : ℕ) (tau : ℚ)
    (N : ℕ) : List Level × List Level :=
  ((List.insertionSort rankRel (srSurvivingSupports df k tau)).take N,
   (List.insertionSort rankRel (srSurvivingResistances df k tau)).take N)

/-- Embedded from `main.py` lines 88-105: the Support/Resistance branch of
`plot_with_indicators` draws the horizontal lines for `support[:3]` and
`resistance[:3]` — the call-site truncation — whatever the detector
returned. -/
def plotSRLines (support resistance : List Level) : List ℚ × List ℚ :=
  ((support.take 3).map Level.value, (resistance.take 3).map Level.value)

/-- Embedded from `main.py` lines 242-246: the Technical Analysis Summary
evaluates `support[0]` and `resistance[0]` with no emptiness check;
Python list indexing fails on an empty list, modelled here by `none`.
The detector is called as in `main.py` with its defaults
(`k = 5`, `τ = 1%`, `N = 3`). -/
def techSummarySR (df : List OHLCV) : Option (ℚ × ℚ) :=
  match identify_support_resistance df 5 (1 / 100) 3 with
  | (s :: _, r :: _) => some (s.value, r.value)
  | _ => none

/-- Sample OHLCV data: four bars, flat at 100 except a swing low (90) at
index 1 and a swing high (110) at index 2; used with pivot lookback 1. -/
def demoDF : List OHLCV :=
  [⟨0, 100, 100, 100, 100, 0⟩,
   ⟨1, 100, 100, 90, 100, 0⟩,
   ⟨2, 100, 110, 100, 100, 0⟩,
   ⟨3, 100, 100, 100, 100, 0⟩]

-- ### Theorems

theorem smaCore_length (closes : List ℚ) (w : ℕ) :
    (smaCore closes w).length = closes.length := by
  simp [smaCore]

theorem smaCore_getElem? (closes : List ℚ) (w i : ℕ) (hi : i < closes.length) :
    (smaCore closes w)[i]? =
      some (if w ≤ i + 1 then some (smaAt closes w i) else none) := by
  simp [smaCore, List.getElem?_map, List.getElem?_range, hi]

/-- Generic counting lemma: if position `i` of `l` is undefined exactly when
`i < m`, then the leading run of undefined positions has length
`min m l.length`. -/
theorem leadNoneCount_eq (l : Series) (m : ℕ)
    (h : ∀ i x, l[i]? = some x → (x.isNone = true ↔ i < m)) :
    leadNoneCount l = min m l.length := by
  induction l generalizing m with
  | nil => simp [leadNoneCount]
  | cons x t ih =>
    have hx := h 0 x (by simp)
    match m with
    | 0 =>
      have : x.isNone = false := by
        rcases Bool.eq_false_or_eq_true x.isNone with hb | hb
        · exact absurd (hx.mp hb) (by omega)
        · exact hb
      simp [leadNoneCount, List.takeWhile, this]
    | m' + 1 =>
      have hxt : x.isNone = true := hx.mpr (by omega)
      have ht : ∀ i y, t[i]? = some y → (y.isNone = true ↔ i < m') := by
        intro i y hy
        have hiy := h (i + 1) y (by simpa using hy)
        constructor
        · intro hb; have := hiy.mp hb; omega
        · intro him; exact hiy.mpr (by omega)
      have := ih m' ht
      simp only [leadNoneCount, List.takeWhile, hxt] at this ⊢
      simp only [List.length_cons, this]
      omega

/-- C2 (amended): for every close series and positive window `w`,
`calculate_ma` succeeds with a series of length exactly `n`, whose number
of undefined leading positions is `min (w-1) n`, and — once `n ≥ w` —
every position from index `w-1` onward is defined. -/
theorem sma_shape (closes : List ℚ) (w : ℤ) (hw : 0 < w) (r : Series)
    (hr : calculate_ma closes w = .ok r) :
    r.length = closes.length ∧
    leadNoneCount r = min (w.toNat - 1) closes.length ∧
    (w.toNat ≤ closes.length → ∀ i, w.toNat - 1 ≤ i → i < closes.length →
      ∃ v, r[i]? = some (some v)) := by
  have hr' : r = smaCore closes w.toNat := by
    have : ¬ (w ≤ 0) := by omega
    simp only [calculate_ma, if_neg this] at hr
    exact (Except.ok.injEq _ _).mp hr |>.symm
  subst hr'
  refine ⟨smaCore_length closes _, ?_, ?_⟩
  · have h := leadNoneCount_eq (smaCore closes w.toNat) (w.toNat - 1) ?_
    · rw [h, smaCore_length]
    · intro i x hx
      have hi : i < closes.length := by
        have := List.getElem?_eq_some.mp hx
        have hlen := this.1
        rwa [smaCore_length] at hlen
      rw [smaCore_getElem? closes w.toNat i hi] at hx
      have hx' := (Option.some.injEq _ _).mp hx
      subst hx'
      by_cases hc : w.toNat ≤ i + 1
      · simp only [if_pos hc, Option.isNone_some]
        constructor
        · intro h; exact absurd h (by simp)
        · intro h; omega
      · simp only [if_neg hc, Option.isNone_none]
        constructor
        · intro _; omega
        · intro _; trivial
  · intro _ i hi1 hi2
    rw [smaCore_getElem? closes w.toNat i hi2, if_pos (by omega)]
    exact ⟨smaAt closes w.toNat i, rfl⟩

/-- C2 (counterexample): with `closes = [1, 2]` and window `w = 2` we have
`n = 2 ≥ w`, yet the SMA result `[none, some (3/2)]` still has its
leading position undefined — so "all n positions are defined once
`n ≥ w`" fails as stated. -/
theorem sma_all_defined_cex :
    calculate_ma [(1 : ℚ), 2] 2 = .ok [none, some (3 / 2)] ∧
    ([none, some ((3 : ℚ) / 2)] : Series).all Option.isSome = false := by
  constructor
  · norm_num [calculate_ma, smaCore, smaAt, windowAt, mean, List.range_succ, show Int.toNat 2 = 2 from rfl]
  · rfl

/-- C2 (witness): the amended shape theorem evaluated on `closes = [1,2,3]`,
`w = 2`: length 3, one leading undefined position, index 2 defined. -/
theorem sma_shape_witness :
    ([none, some ((3 : ℚ) / 2), some (5 / 2)] : Series).length =
      ([(1 : ℚ), 2, 3]).length ∧
    leadNoneCount [none, some ((3 : ℚ) / 2), some (5 / 2)] =
      min ((2 : ℤ).toNat - 1) ([(1 : ℚ), 2, 3]).length ∧
    ∃ v, ([none, some ((3 : ℚ) / 2), some (5 / 2)] : Series)[2]? =
      some (some v) := by
  have h := sma_shape [(1 : ℚ), 2, 3] 2 (by decide)
    [none, some (3 / 2), some (5 / 2)]
    (by norm_num [calculate_ma, smaCore, smaAt, windowAt, mean, List.range_succ, show Int.toNat 2 = 2 from rfl])
  exact ⟨h.1, h.2.1, h.2.2 (by decide) 2 (by decide) (by decide)⟩

/-- C3: `calculate_ma` fails with `InvalidWindowError` exactly when the
window is non-positive, and for a positive window larger than the series
length it returns the all-undefined series of length `n` instead of an
error. -/
theorem ma_window_validation (closes : List ℚ) (w : ℤ) :
    (calculate_ma closes w = .error .invalidWindowError ↔ w ≤ 0) ∧
    (0 < w → (closes.length : ℤ) < w →
      calculate_ma closes w = .ok (List.replicate closes.length none)) := by
  constructor
  · by_cases h : w ≤ 0
    · simp [calculate_ma, h]
    · simp [calculate_ma, h]
  · intro hw hn
    have h0 : ¬ (w ≤ 0) := by omega
    simp only [calculate_ma, if_neg h0]
    congr 1
    apply List.ext_getElem?
    intro i
    by_cases hi : i < closes.length
    · rw [smaCore_getElem? closes w.toNat i hi, List.getElem?_replicate,
        if_pos hi, if_neg (by omega)]
    · have h1 : (smaCore closes w.toNat).length ≤ i := by
        rw [smaCore_length]; omega
      have h2 : (List.replicate closes.length (none : Option ℚ)).length ≤ i := by
        rw [List.length_replicate]; omega
      rw [List.getElem?_eq_none h1, List.getElem?_eq_none h2]

/-- C3 (witness): window `0` on `[1,2,3]` raises `InvalidWindowError`;
window `5 > 3` returns the all-undefined series of length 3. -/
theorem ma_window_validation_witness :
    calculate_ma [(1 : ℚ), 2, 3] 0 = .error .invalidWindowError ∧
    calculate_ma [(1 : ℚ), 2, 3] 5 = .ok (List.replicate 3 none) :=
  ⟨(ma_window_validation [(1 : ℚ), 2, 3] 0).1.mpr (by decide),
   (ma_window_validation [(1 : ℚ), 2, 3] 5).2 (by decide) (by decide)⟩

theorem emaCore_undefined_getElem? (closes : List ℚ) (w : ℕ) (hw : 1 ≤ w)
    (hn : w ≤ closes.length) (i : ℕ) (hi : i < w - 1) :
    (emaCore closes w)[i]? = some none := by
  have hcond : ¬ (w = 0 ∨ closes.length < w) := by omega
  rw [emaCore, if_neg hcond, List.getElem?_append,
    if_pos (by simpa using hi), List.getElem?_replicate, if_pos hi]

theorem emaCore_defined_getElem? (closes : List ℚ) (w : ℕ) (hw : 1 ≤ w)
    (hn : w ≤ closes.length) (j : ℕ) (hj : j < closes.length - w + 1) :
    (emaCore closes w)[w - 1 + j]? =
      some (some (emaVal (emaAlpha w) (mean (closes.take w)) (closes.drop w) j)) := by
  have hcond : ¬ (w = 0 ∨ closes.length < w) := by omega
  rw [emaCore, if_neg hcond,
    List.getElem?_append_right (by simp), List.length_replicate]
  have he : w - 1 + j - (w - 1) = j := by omega
  rw [he, List.getElem?_map, List.getElem?_range hj]
  rfl

/-- C7: for a positive window `w` and a series of length at least `w`, the
EMA is undefined before index `w-1`, equals the SMA of the first `w`
closes at index `w-1`, and satisfies the recurrence
`EMA[i] = α·close[i] + (1-α)·EMA[i-1]` with `α = 2/(w+1)` for `i ≥ w`. -/
theorem ema_spec (closes : List ℚ) (w : ℤ) (hw : 0 < w)
    (hn : w.toNat ≤ closes.length) (r : Series)
    (hr : calculate_ema closes w = .ok r) :
    (∀ i, i < w.toNat - 1 → r[i]? = some none) ∧
    r[w.toNat - 1]? = some (some (mean (closes.take w.toNat))) ∧
    (∀ i, w.toNat ≤ i → i < closes.length →
      ∃ p c, r[i - 1]? = some (some p) ∧ closes[i]? = some c ∧
        r[i]? = some (some (emaAlpha w.toNat * c + (1 - emaAlpha w.toNat) * p))) := by
  have hw1 : 1 ≤ w.toNat := by omega
  have hr' : r = emaCore closes w.toNat := by
    have h0 : ¬ (w ≤ 0) := by omega
    simp only [calculate_ema, if_neg h0] at hr
    exact ((Except.ok.injEq _ _).mp hr).symm
  subst hr'
  refine ⟨?_, ?_, ?_⟩
  · intro i hi; exact emaCore_undefined_getElem? closes w.toNat hw1 hn i hi
  · have h0 : (0 : ℕ) < closes.length - w.toNat + 1 := by omega
    have h := emaCore_defined_getElem? closes w.toNat hw1 hn 0 h0
    simpa [emaVal] using h
  · intro i hi1 hi2
    have hj1 : i - w.toNat < closes.length - w.toNat + 1 := by omega
    have hj2 : i - w.toNat + 1 < closes.length - w.toNat + 1 := by omega
    have hprev := emaCore_defined_getElem? closes w.toNat hw1 hn (i - w.toNat) hj1
    have hcur := emaCore_defined_getElem? closes w.toNat hw1 hn (i - w.toNat + 1) hj2
    rw [show w.toNat - 1 + (i - w.toNat) = i - 1 from by omega] at hprev
    rw [show w.toNat - 1 + (i - w.toNat + 1) = i from by omega] at hcur
    refine ⟨emaVal (emaAlpha w.toNat) (mean (closes.take w.toNat))
      (closes.drop w.toNat) (i - w.toNat), closes[i], hprev,
      List.getElem?_eq_getElem hi2, ?_⟩
    rw [hcur]
    have hunfold : emaVal (emaAlpha w.toNat) (mean (closes.take w.toNat))
        (closes.drop w.toNat) (i - w.toNat + 1) =
        emaAlpha w.toNat * (closes.drop w.toNat).getD (i - w.toNat) 0 +
          (1 - emaAlpha w.toNat) * emaVal (emaAlpha w.toNat)
            (mean (closes.take w.toNat)) (closes.drop w.toNat) (i - w.toNat) := by
      simp [emaVal]
    rw [hunfold]
    have hc : (closes.drop w.toNat).getD (i - w.toNat) 0 = closes[i] := by
      rw [List.getD_eq_getElem?_getD, List.getElem?_drop,
        show w.toNat + (i - w.toNat) = i from by omega,
        List.getElem?_eq_getElem hi2]
      rfl
    rw [hc]

/-- C7 (witness): the EMA theorem evaluated on `closes = [1,2,3]`, `w = 2`:
index 0 undefined, index 1 carries the seed SMA, index 2 satisfies the
recurrence. -/
theorem ema_spec_witness :
    (emaCore [(1 : ℚ), 2, 3] 2)[0]? = some none ∧
    (emaCore [(1 : ℚ), 2, 3] 2)[1]? = some (some (mean ([(1 : ℚ), 2, 3].take 2))) ∧
    ∃ p c, (emaCore [(1 : ℚ), 2, 3] 2)[1]? = some (some p) ∧
      ([(1 : ℚ), 2, 3])[2]? = some c ∧
      (emaCore [(1 : ℚ), 2, 3] 2)[2]? =
        some (some (emaAlpha 2 * c + (1 - emaAlpha 2) * p)) := by
  have h := ema_spec [(1 : ℚ), 2, 3] 2 (by decide) (by decide)
    (emaCore [(1 : ℚ), 2, 3] 2)
    (by simp [calculate_ema, show Int.toNat 2 = 2 from rfl])
  simp only [show Int.toNat 2 = 2 from rfl] at h
  exact ⟨h.1 0 (by decide), h.2.1, h.2.2 2 (by decide) (by decide)⟩

theorem gains_nonneg (closes : List ℚ) : ∀ x ∈ gains closes, 0 ≤ x := by
  intro x hx
  obtain ⟨p, _, hpe⟩ := List.mem_map.mp hx
  rw [← hpe]
  exact le_max_right _ 0

theorem losses_nonneg (closes : List ℚ) : ∀ x ∈ losses closes, 0 ≤ x := by
  intro x hx
  obtain ⟨p, _, hpe⟩ := List.mem_map.mp hx
  rw [← hpe]
  exact le_max_right _ 0

theorem mean_nonneg (l : List ℚ) (h : ∀ x ∈ l, 0 ≤ x) : 0 ≤ mean l :=
  div_nonneg (List.sum_nonneg h) (Nat.cast_nonneg _)

theorem wilderStep_nonneg (w : ℕ) (hw : 1 ≤ w) (prev x : ℚ)
    (hp : 0 ≤ prev) (hx : 0 ≤ x) : 0 ≤ wilderStep w prev x :=
  div_nonneg
    (add_nonneg
      (mul_nonneg hp (sub_nonneg.mpr (by exact_mod_cast hw))) hx)
    (Nat.cast_nonneg w)

theorem wilderFrom_nonneg (w : ℕ) (hw : 1 ≤ w) (xs : List ℚ) :
    ∀ prev, 0 ≤ prev → (∀ x ∈ xs, 0 ≤ x) →
      ∀ y ∈ wilderFrom w prev xs, 0 ≤ y := by
  induction xs with
  | nil => intro prev _ _ y hy; simp [wilderFrom] at hy
  | cons x xs ih =>
    intro prev hp hxs y hy
    have hx : 0 ≤ x := hxs x (by simp)
    have hs : 0 ≤ wilderStep w prev x := wilderStep_nonneg w hw prev x hp hx
    rcases List.mem_cons.mp hy with h | h
    · rw [h]; exact hs
    · exact ih (wilderStep w prev x) hs (fun z hz => hxs z (by simp [hz])) y h

theorem wilderAvgs_nonneg (w : ℕ) (xs : List ℚ) (hxs : ∀ x ∈ xs, 0 ≤ x) :
    ∀ y ∈ wilderAvgs w xs, 0 ≤ y := by
  intro y hy
  rw [wilderAvgs] at hy
  by_cases hc : 0 < w ∧ w ≤ xs.length
  · rw [if_pos hc] at hy
    have hseed : 0 ≤ mean (xs.take w) :=
      mean_nonneg _ (fun z hz => hxs z (List.take_subset w xs hz))
    rcases List.mem_cons.mp hy with h | h
    · rw [h]; exact hseed
    · exact wilderFrom_nonneg w hc.1 (xs.drop w) _ hseed
        (fun z hz => hxs z (List.drop_subset w xs hz)) y h
  · rw [if_neg hc] at hy
    simp at hy

theorem rsiFromAvg_bounds (g l : ℚ) (hg : 0 ≤ g) (hl : 0 ≤ l) :
    0 ≤ rsiFromAvg g l ∧ rsiFromAvg g l ≤ 100 := by
  rw [rsiFromAvg]
  by_cases h0 : l = 0
  · rw [if_pos h0]
    by_cases hgp : 0 < g
    · rw [if_pos hgp]; norm_num
    · rw [if_neg hgp]; norm_num
  · rw [if_neg h0]
    have hlp : 0 < l := lt_of_le_of_ne hl (Ne.symm h0)
    have hRS : 0 ≤ g / l := div_nonneg hg hl
    have h1 : (1 : ℚ) ≤ 1 + g / l := by linarith
    have hle : (100 : ℚ) / (1 + g / l) ≤ 100 := div_le_self (by norm_num) h1
    have hpos : (0 : ℚ) < 100 / (1 + g / l) := div_pos (by norm_num) (by linarith)
    constructor <;> linarith

theorem rsiFromAvg_loss_zero (g : ℚ) (hg : 0 < g) : rsiFromAvg g 0 = 100 := by
  rw [rsiFromAvg, if_pos rfl, if_pos hg]

theorem rsiFromAvg_flat : rsiFromAvg 0 0 = 50 := by
  rw [rsiFromAvg, if_pos rfl, if_neg (by norm_num)]

theorem rsiAvgPairs_nonneg (closes : List ℚ) (w : ℕ) :
    ∀ p ∈ rsiAvgPairs closes w, 0 ≤ p.1 ∧ 0 ≤ p.2 := by
  intro p hp
  obtain ⟨g, l⟩ := p
  have h := List.of_mem_zip hp
  exact ⟨wilderAvgs_nonneg w (gains closes) (gains_nonneg closes) g h.1,
    wilderAvgs_nonneg w (losses closes) (losses_nonneg closes) l h.2⟩

/-- C4: every defined RSI value lies in `[0, 100]`; at the defined position
fed by the Wilder averages `(g, l)`, the result carries `rsiFromAvg g l`,
which is `100` when `l = 0 < g` and `50` when both averages vanish. -/
theorem rsi_spec (closes : List ℚ) (w : ℤ) (r : Series)
    (hr : calculate_rsi closes w = .ok r) :
    (∀ q : ℚ, some q ∈ r → 0 ≤ q ∧ q ≤ 100) ∧
    (∀ i g l, (rsiAvgPairs closes w.toNat)[i]? = some (g, l) →
      r[min w.toNat closes.length + i]? = some (some (rsiFromAvg g l)) ∧
      (l = 0 → 0 < g → rsiFromAvg g l = 100) ∧
      (l = 0 → g = 0 → rsiFromAvg g l = 50)) := by
  by_cases h1 : w ≤ 0
  · simp [calculate_rsi, h1] at hr
  by_cases h2 : closes = []
  · simp [calculate_rsi, h1, h2] at hr
  have hr' : r = List.replicate (min w.toNat closes.length) none ++
      (rsiAvgPairs closes w.toNat).map (fun p => some (rsiFromAvg p.1 p.2)) := by
    simp only [calculate_rsi, if_neg h1, if_neg h2] at hr
    exact ((Except.ok.injEq _ _).mp hr).symm
  subst hr'
  constructor
  · intro q hq
    rcases List.mem_append.mp hq with hmem | hmem
    · exact absurd (List.eq_of_mem_replicate hmem) (by simp)
    · obtain ⟨p, hp, hpe⟩ := List.mem_map.mp hmem
      have hq' : q = rsiFromAvg p.1 p.2 :=
        ((Option.some.injEq _ _).mp hpe).symm
      have hnn := rsiAvgPairs_nonneg closes w.toNat p hp
      rw [hq']
      exact rsiFromAvg_bounds p.1 p.2 hnn.1 hnn.2
  · intro i g l hil
    refine ⟨?_, fun hl0 hg0 => by rw [hl0]; exact rsiFromAvg_loss_zero g hg0,
      fun hl0 hg0 => by rw [hl0, hg0]; exact rsiFromAvg_flat⟩
    rw [List.getElem?_append_right (by simp), List.length_replicate,
      show min w.toNat closes.length + i - min w.toNat closes.length = i
        from by omega,
      List.getElem?_map, hil]
    rfl

/-- C4 (witness): the RSI theorem evaluated on the flat series `[5, 5]`
with `w = 1`: the single defined position carries `rsiFromAvg 0 0 = 50`,
inside the `[0, 100]` bounds. -/
theorem rsi_spec_witness :
    (0 : ℚ) ≤ 50 ∧ (50 : ℚ) ≤ 100 ∧
    (List.replicate (min (Int.toNat 1) 2) (none : Option ℚ) ++
      (rsiAvgPairs [(5 : ℚ), 5] (Int.toNat 1)).map
        (fun p => some (rsiFromAvg p.1 p.2)))[min (Int.toNat 1) 2 + 0]? =
      some (some (rsiFromAvg 0 0)) ∧ rsiFromAvg 0 0 = 50 := by
  have h := rsi_spec [(5 : ℚ), 5] 1
    (List.replicate (min (Int.toNat 1) 2) none ++
      (rsiAvgPairs [(5 : ℚ), 5] (Int.toNat 1)).map
        (fun p => some (rsiFromAvg p.1 p.2))) rfl
  have hpair : (rsiAvgPairs [(5 : ℚ), 5] (Int.toNat 1))[0]? = some (0, 0) := by
    norm_num [rsiAvgPairs, wilderAvgs, wilderFrom, gains, losses, mean,
      show Int.toNat 1 = 1 from rfl]
  have h2 := h.2 0 0 0 hpair
  have hmem : (some (rsiFromAvg 0 0)) ∈
      (List.replicate (min (Int.toNat 1) 2) (none : Option ℚ) ++
        (rsiAvgPairs [(5 : ℚ), 5] (Int.toNat 1)).map
          (fun p => some (rsiFromAvg p.1 p.2))) := by
    refine List.mem_append_right _ (List.mem_map.mpr ⟨(0, 0), ?_, rfl⟩)
    have := List.getElem?_eq_some.mp hpair
    obtain ⟨hlt, hget⟩ := this
    rw [← hget]
    exact List.getElem_mem hlt
  have hb := h.1 (rsiFromAvg 0 0) hmem
  have h50 : rsiFromAvg 0 0 = 50 := rsiFromAvg_flat
  refine ⟨?_, ?_, h2.1, h50⟩
  · have := hb.1; rwa [h50] at this
  · have := hb.2; rwa [h50] at this

/-- C8: the empty close series makes `calculate_rsi` fail with
`EmptySeriesError` (for any valid, i.e. positive, window). -/
theorem rsi_empty_series (w : ℤ) (hw : 0 < w) :
    calculate_rsi [] w = .error .emptySeriesError := by
  rw [calculate_rsi, if_neg (by omega), if_pos rfl]

/-- C8 (witness): the empty series with the default window 14. -/
theorem rsi_empty_series_witness :
    calculate_rsi [] 14 = .error .emptySeriesError :=
  rsi_empty_series 14 (by decide)

theorem bollingerUpper_getElem? (s : SqrtFn) (closes : List ℚ) (w i : ℕ)
    (k : ℚ) (hi : i < closes.length) :
    (bollingerUpper s closes w k)[i]? =
      some (if w ≤ i + 1 then
        some (smaAt closes w i + k * s.f (rollingVarAt closes w i))
      else none) := by
  simp [bollingerUpper, List.getElem?_map, List.getElem?_range, hi]

theorem bollingerLower_getElem? (s : SqrtFn) (closes : List ℚ) (w i : ℕ)
    (k : ℚ) (hi : i < closes.length) :
    (bollingerLower s closes w k)[i]? =
      some (if w ≤ i + 1 then
        some (smaAt closes w i - k * s.f (rollingVarAt closes w i))
      else none) := by
  simp [bollingerLower, List.getElem?_map, List.getElem?_range, hi]

/-- C5 (amended): for a nonnegative multiplier, wherever the middle band
(the SMA) is defined, both outer bands are defined with offset
`k·stddev ≥ 0`, so `lower ≤ middle ≤ upper`; wherever the middle band is
undefined, both outer bands are undefined too (same undefined prefix as
the SMA).  For a negative multiplier the ordering fails (see the
counterexample), so the nonnegativity restriction is necessary. -/
theorem bollinger_spec (s : SqrtFn) (closes : List ℚ) (w : ℤ) (k : ℚ)
    (hk : 0 ≤ k) (u m l : Series)
    (hr : calculate_bollinger_bands s closes w k = .ok (u, m, l)) :
    m = smaCore closes w.toNat ∧
    ∀ i, i < closes.length →
      ((∀ mv, m[i]? = some (some mv) →
        ∃ sd, 0 ≤ sd ∧ u[i]? = some (some (mv + k * sd)) ∧
          l[i]? = some (some (mv - k * sd)) ∧
          mv - k * sd ≤ mv ∧ mv ≤ mv + k * sd) ∧
       (m[i]? = some none → u[i]? = some none ∧ l[i]? = some none)) := by
  by_cases h0 : w ≤ 0
  · simp [calculate_bollinger_bands, h0] at hr
  have htriple := hr
  simp only [calculate_bollinger_bands, if_neg h0] at htriple
  have huml := (Except.ok.injEq _ _).mp htriple
  have hu : u = bollingerUpper s closes w.toNat k :=
    (congrArg Prod.fst huml).symm
  have hm : m = smaCore closes w.toNat :=
    (congrArg (fun t => t.2.1) huml).symm
  have hl : l = bollingerLower s closes w.toNat k :=
    (congrArg (fun t => t.2.2) huml).symm
  subst hu hm hl
  refine ⟨rfl, ?_⟩
  intro i hi
  constructor
  · intro mv hmv
    rw [smaCore_getElem? closes w.toNat i hi] at hmv
    by_cases hc : w.toNat ≤ i + 1
    · rw [if_pos hc] at hmv
      have hmv' : smaAt closes w.toNat i = mv := by
        have := (Option.some.injEq _ _).mp hmv
        exact (Option.some.injEq _ _).mp this
      refine ⟨s.f (rollingVarAt closes w.toNat i), s.nonneg _, ?_, ?_, ?_, ?_⟩
      · rw [bollingerUpper_getElem? s closes w.toNat i k hi, if_pos hc, hmv']
      · rw [bollingerLower_getElem? s closes w.toNat i k hi, if_pos hc, hmv']
      · have : 0 ≤ k * s.f (rollingVarAt closes w.toNat i) :=
          mul_nonneg hk (s.nonneg _)
        linarith
      · have : 0 ≤ k * s.f (rollingVarAt closes w.toNat i) :=
          mul_nonneg hk (s.nonneg _)
        linarith
    · rw [if_neg hc] at hmv
      exact absurd ((Option.some.injEq _ _).mp hmv) (by simp)
  · intro hmn
    rw [smaCore_getElem? closes w.toNat i hi] at hmn
    by_cases hc : w.toNat ≤ i + 1
    · rw [if_pos hc] at hmn
      exact absurd ((Option.some.injEq _ _).mp hmn) (by simp)
    · constructor
      · rw [bollingerUpper_getElem? s closes w.toNat i k hi, if_neg hc]
      · rw [bollingerLower_getElem? s closes w.toNat i k hi, if_neg hc]

/-- C5 (witness): the band theorem evaluated with a concrete square-root
function on `closes = [1,2,3]`, `w = 2`, `k = 2` at the defined
position 1, where the middle band is `3/2`. -/
theorem bollinger_spec_witness :
    ∃ sd, 0 ≤ sd ∧
      (bollingerUpper demoSqrt [(1 : ℚ), 2, 3] (Int.toNat 2) 2)[1]? =
        some (some (3 / 2 + 2 * sd)) ∧
      (bollingerLower demoSqrt [(1 : ℚ), 2, 3] (Int.toNat 2) 2)[1]? =
        some (some (3 / 2 - 2 * sd)) ∧
      (3 : ℚ) / 2 - 2 * sd ≤ 3 / 2 ∧ (3 : ℚ) / 2 ≤ 3 / 2 + 2 * sd := by
  have h := bollinger_spec demoSqrt [(1 : ℚ), 2, 3] 2 2 (by norm_num)
    (bollingerUpper demoSqrt [(1 : ℚ), 2, 3] (Int.toNat 2) 2)
    (smaCore [(1 : ℚ), 2, 3] (Int.toNat 2))
    (bollingerLower demoSqrt [(1 : ℚ), 2, 3] (Int.toNat 2) 2) rfl
  exact (h.2 1 (by decide)).1 (3 / 2)
    (by norm_num [smaCore, smaAt, windowAt, mean, List.range_succ,
      show Int.toNat 2 = 2 from rfl])

theorem zipWith_getElem? {α β γ : Type} (f : α → β → γ) (l1 : List α)
    (l2 : List β) (i : ℕ) :
    (List.zipWith f l1 l2)[i]? =
      match l1[i]?, l2[i]? with
      | some a, some b => some (f a b)
      | _, _ => none := by
  induction l1 generalizing l2 i with
  | nil => cases l2 <;> cases i <;> simp
  | cons x t ih =>
    cases l2 with
    | nil => cases i <;> simp
    | cons y s =>
      cases i with
      | zero => simp
      | succ i =>
        simp only [List.zipWith_cons_cons, List.getElem?_cons_succ]
        exact ih s i

theorem ns_exists {l : Series} (h : NoneThenSome l) :
    ∃ (p : ℕ) (v : List ℚ), l = List.replicate p none ++ v.map some := by
  induction h with
  | allSome v => exact ⟨0, v, rfl⟩
  | consNone _ ih =>
    obtain ⟨p, v, he⟩ := ih
    refine ⟨p + 1, v, ?_⟩
    rw [he, List.replicate_succ, List.cons_append]

theorem ns_replicate_append (p : ℕ) (v : List ℚ) :
    NoneThenSome (List.replicate p none ++ v.map some) := by
  induction p with
  | zero => exact .allSome v
  | succ p ih =>
    rw [List.replicate_succ, List.cons_append]
    exact .consNone ih

theorem emaCore_ns (closes : List ℚ) (w : ℕ) :
    NoneThenSome (emaCore closes w) := by
  rw [emaCore]
  split
  · have : (List.replicate closes.length (none : Option ℚ)) =
        List.replicate closes.length none ++ ([] : List ℚ).map some := by simp
    rw [this]
    exact ns_replicate_append _ _
  · have : (List.range (closes.length - w + 1)).map
        (fun j => some (emaVal (emaAlpha w) (mean (closes.take w))
          (closes.drop w) j)) =
        ((List.range (closes.length - w + 1)).map
          (fun j => emaVal (emaAlpha w) (mean (closes.take w))
            (closes.drop w) j)).map some := by
      rw [List.map_map]; rfl
    rw [this]
    exact ns_replicate_append _ _

theorem zip_allSome (v1 v2 : List ℚ) :
    optZipSub (v1.map some) (v2.map some) =
      (List.zipWith (fun a b => a - b) v1 v2).map some := by
  induction v1 generalizing v2 with
  | nil => rfl
  | cons x t ih =>
    cases v2 with
    | nil => rfl
    | cons y s => simpa [optZipSub] using ih s

theorem ns_optZipSub {a b : Series} (ha : NoneThenSome a)
    (hb : NoneThenSome b) : NoneThenSome (optZipSub a b) := by
  induction ha generalizing b with
  | allSome v =>
    induction hb generalizing v with
    | allSome u => rw [zip_allSome]; exact .allSome _
    | consNone hbt ihb =>
      cases v with
      | nil => exact .allSome []
      | cons x v' =>
        show NoneThenSome (none :: optZipSub (v'.map some) _)
        exact .consNone (ihb v')
  | consNone hat iha =>
    cases hb with
    | allSome u =>
      cases u with
      | nil => exact .allSome []
      | cons y u' =>
        show NoneThenSome (none :: optZipSub _ (u'.map some))
        exact .consNone (iha (.allSome u'))
    | consNone hbt =>
      show NoneThenSome (none :: optZipSub _ _)
      exact .consNone (iha hbt)

theorem emaCore_length (closes : List ℚ) (w : ℕ) :
    (emaCore closes w).length = closes.length := by
  rw [emaCore]
  split
  · simp
  · rename_i h
    simp only [List.length_append, List.length_replicate, List.length_map,
      List.length_range]
    omega

theorem macdLineOf_length (closes : List ℚ) (fast slow : ℕ) :
    (macdLineOf closes fast slow).length = closes.length := by
  rw [macdLineOf, optZipSub, List.length_zipWith, emaCore_length,
    emaCore_length]
  omega

theorem leadNoneCount_replicate_append (p : ℕ) (v : List ℚ) :
    leadNoneCount (List.replicate p none ++ v.map some) = p := by
  induction p with
  | zero =>
    cases v with
    | nil => rfl
    | cons x v' => rfl
  | succ p ih =>
    rw [List.replicate_succ, List.cons_append]
    simp only [leadNoneCount] at ih ⊢
    rw [show (none :: (List.replicate p (none : Option ℚ) ++
        v.map some)).takeWhile Option.isNone =
        none :: ((List.replicate p (none : Option ℚ) ++
          v.map some).takeWhile Option.isNone) from by
      simp [List.takeWhile_cons]]
    rw [List.length_cons, ih]

theorem dropWhile_replicate_append (p : ℕ) (v : List ℚ) :
    (List.replicate p none ++ v.map some).dropWhile Option.isNone =
      v.map some := by
  induction p with
  | zero =>
    cases v with
    | nil => rfl
    | cons x v' => rfl
  | succ p ih =>
    rw [List.replicate_succ, List.cons_append]
    simp [List.dropWhile_cons, ih]

theorem filterMap_id_map_some (v : List ℚ) : (v.map some).filterMap id = v := by
  induction v with
  | nil => rfl
  | cons x t ih => simp [List.filterMap_cons, ih]

theorem definedVals_replicate_append (p : ℕ) (v : List ℚ) :
    definedVals (List.replicate p none ++ v.map some) = v := by
  rw [definedVals, dropWhile_replicate_append, filterMap_id_map_some]

theorem signalLineOf_length (closes : List ℚ) (fast slow sig : ℕ) :
    (signalLineOf closes fast slow sig).length = closes.length := by
  obtain ⟨p, v, he⟩ := ns_exists (ns_optZipSub (emaCore_ns closes fast)
    (emaCore_ns closes slow))
  have he' : macdLineOf closes fast slow =
      List.replicate p none ++ v.map some := he
  have hn : p + v.length = closes.length := by
    have hlen := macdLineOf_length closes fast slow
    rw [he'] at hlen
    simpa using hlen
  rw [signalLineOf, List.length_append, List.length_replicate, emaCore_length,
    he', leadNoneCount_replicate_append, definedVals_replicate_append]
  exact hn

/-- C6: at every index where both the MACD line and the signal line are
defined, the histogram equals their difference exactly; wherever either
operand is undefined, the histogram is undefined.  All three series have
the input's length. -/
theorem macd_histogram_spec (closes : List ℚ) (fast slow sig : ℤ)
    (macd sigl hist : Series)
    (hr : calculate_macd closes fast slow sig = .ok (macd, sigl, hist)) :
    macd.length = closes.length ∧ sigl.length = closes.length ∧
    hist.length = closes.length ∧
    (∀ (i : ℕ) (a b : ℚ), macd[i]? = some (some a) → sigl[i]? = some (some b) →
      hist[i]? = some (some (a - b))) ∧
    (∀ i, i < closes.length →
      (macd[i]? = some none ∨ sigl[i]? = some none) →
      hist[i]? = some none) := by
  by_cases h0 : fast ≤ 0 ∨ slow ≤ 0 ∨ sig ≤ 0
  · simp [calculate_macd, h0] at hr
  simp only [calculate_macd, if_neg h0] at hr
  have h3 := (Except.ok.injEq _ _).mp hr
  have hma : macd = macdLineOf closes fast.toNat slow.toNat :=
    (congrArg Prod.fst h3).symm
  have hsi : sigl = signalLineOf closes fast.toNat slow.toNat sig.toNat :=
    (congrArg (fun t => t.2.1) h3).symm
  have hhi : hist = optZipSub (macdLineOf closes fast.toNat slow.toNat)
      (signalLineOf closes fast.toNat slow.toNat sig.toNat) :=
    (congrArg (fun t => t.2.2) h3).symm
  subst hma hsi hhi
  have hml := macdLineOf_length closes fast.toNat slow.toNat
  have hsl := signalLineOf_length closes fast.toNat slow.toNat sig.toNat
  refine ⟨hml, hsl, ?_, ?_, ?_⟩
  · rw [optZipSub, List.length_zipWith, hml, hsl]
    omega
  · intro i a b hia hib
    rw [optZipSub, zipWith_getElem?, hia, hib]
  · intro i hi hd
    have hia : (macdLineOf closes fast.toNat slow.toNat)[i]? =
        some (macdLineOf closes fast.toNat slow.toNat)[i] :=
      List.getElem?_eq_getElem (by rw [hml]; exact hi)
    have hib : (signalLineOf closes fast.toNat slow.toNat sig.toNat)[i]? =
        some (signalLineOf closes fast.toNat slow.toNat sig.toNat)[i] :=
      List.getElem?_eq_getElem (by rw [hsl]; exact hi)
    rcases hd with hd | hd
    · have hx : (macdLineOf closes fast.toNat slow.toNat)[i] = none := by
        rw [hia] at hd
        exact (Option.some.injEq _ _).mp hd
      rw [optZipSub, zipWith_getElem?, hia, hib, hx]
    · have hy : (signalLineOf closes fast.toNat slow.toNat sig.toNat)[i] =
          none := by
        rw [hib] at hd
        exact (Option.some.injEq _ _).mp hd
      rw [optZipSub, zipWith_getElem?, hia, hib, hy]
      cases hx : (macdLineOf closes fast.toNat slow.toNat)[i] with
      | none => rfl
      | some a => rfl

theorem emaVal_zero (a s : ℚ) (r : List ℚ) : emaVal a s r 0 = s := rfl

theorem emaVal_one (a s : ℚ) (r : List ℚ) :
    emaVal a s r 1 = a * r.getD 0 0 + (1 - a) * s := rfl

theorem emaVal_two (a s : ℚ) (r : List ℚ) :
    emaVal a s r 2 = a * r.getD 1 0 + (1 - a) * emaVal a s r 1 := rfl

/-- C6 (witness): the MACD theorem evaluated on `closes = [1,2,3]` with
windows `fast = 1`, `slow = 2`, `signal = 1`: position 1 has
`hist = macd - signal = 1/2 - 1/2`, position 0 is undefined because the
MACD line is. -/
theorem macd_histogram_spec_witness :
    (optZipSub (macdLineOf [(1 : ℚ), 2, 3] (Int.toNat 1) (Int.toNat 2))
      (signalLineOf [(1 : ℚ), 2, 3] (Int.toNat 1) (Int.toNat 2)
        (Int.toNat 1)))[1]? = some (some ((1 : ℚ) / 2 - 1 / 2)) ∧
    (optZipSub (macdLineOf [(1 : ℚ), 2, 3] (Int.toNat 1) (Int.toNat 2))
      (signalLineOf [(1 : ℚ), 2, 3] (Int.toNat 1) (Int.toNat 2)
        (Int.toNat 1)))[0]? = some none := by
  have h := macd_histogram_spec [(1 : ℚ), 2, 3] 1 2 1
    (macdLineOf [(1 : ℚ), 2, 3] (Int.toNat 1) (Int.toNat 2))
    (signalLineOf [(1 : ℚ), 2, 3] (Int.toNat 1) (Int.toNat 2) (Int.toNat 1))
    (optZipSub (macdLineOf [(1 : ℚ), 2, 3] (Int.toNat 1) (Int.toNat 2))
      (signalLineOf [(1 : ℚ), 2, 3] (Int.toNat 1) (Int.toNat 2)
        (Int.toNat 1))) rfl
  have hm : macdLineOf [(1 : ℚ), 2, 3] (Int.toNat 1) (Int.toNat 2) =
      [none, some (1 / 2), some (1 / 2)] := by
    norm_num [macdLineOf, optZipSub, emaCore, emaAlpha, mean, emaVal_zero,
      emaVal_one, emaVal_two, List.range_succ,
      show Int.toNat 1 = 1 from rfl, show Int.toNat 2 = 2 from rfl]
  have hs : signalLineOf [(1 : ℚ), 2, 3] (Int.toNat 1) (Int.toNat 2)
      (Int.toNat 1) = [none, some (1 / 2), some (1 / 2)] := by
    rw [signalLineOf, hm]
    norm_num [leadNoneCount, definedVals, emaCore, emaAlpha, mean,
      emaVal_zero, emaVal_one, List.range_succ, List.takeWhile_cons,
      List.dropWhile_cons, List.filterMap_cons,
      show Int.toNat 1 = 1 from rfl]
  constructor
  · exact h.2.2.2.1 1 (1 / 2) (1 / 2) (by rw [hm]; rfl) (by rw [hs]; rfl)
  · exact h.2.2.2.2 0 (by norm_num) (Or.inl (by rw [hm]; rfl))

theorem mem_take_sort_rank {N : ℕ} {l : List Level} {x : Level}
    (hx : x ∈ (List.insertionSort rankRel l).take N) : x ∈ l :=
  (List.perm_insertionSort rankRel l).subset (List.take_subset N _ hx)

/-- C1: every returned support level lies strictly below the current
close and every returned resistance strictly above it; each side has
length at most `N`; each side is sorted by descending strength with ties
broken by descending `lastTouchIndex` (the order `rankRel`); and when at
most `N` clusters survive on a side, that side is exactly the survivors
(a permutation of them — nothing is padded or dropped). -/
theorem sr_levels_spec (df : List OHLCV) (k : ℕ) (tau : ℚ) (N : ℕ) :
    (∀ l ∈ (identify_support_resistance df k tau N).1,
      l.value < currentClose df) ∧
    (∀ l ∈ (identify_support_resistance df k tau N).2,
      currentClose df < l.value) ∧
    (identify_support_resistance df k tau N).1.length ≤ N ∧
    (identify_support_resistance df k tau N).2.length ≤ N ∧
    (identify_support_resistance df k tau N).1.Sorted rankRel ∧
    (identify_support_resistance df k tau N).2.Sorted rankRel ∧
    ((srSurvivingSupports df k tau).length ≤ N →
      (identify_support_resistance df k tau N).1.Perm
        (srSurvivingSupports df k tau)) ∧
    ((srSurvivingResistances df k tau).length ≤ N →
      (identify_support_resistance df k tau N).2.Perm
        (srSurvivingResistances df k tau)) := by
  refine ⟨?_, ?_, ?_, ?_, ?_, ?_, ?_, ?_⟩
  · intro l hl
    have hmem : l ∈ srSurvivingSupports df k tau := mem_take_sort_rank hl
    have := List.of_mem_filter hmem
    exact of_decide_eq_true this
  · intro l hl
    have hmem : l ∈ srSurvivingResistances df k tau := mem_take_sort_rank hl
    have := List.of_mem_filter hmem
    exact of_decide_eq_true this
  · rw [identify_support_resistance]
    simp only [List.length_take]
    exact min_le_left _ _
  · rw [identify_support_resistance]
    simp only [List.length_take]
    exact min_le_left _ _
  · exact (List.sorted_insertionSort rankRel _).sublist (List.take_sublist _ _)
  · exact (List.sorted_insertionSort rankRel _).sublist (List.take_sublist _ _)
  · intro hlen
    rw [identify_support_resistance]
    have heq : (List.insertionSort rankRel
        (srSurvivingSupports df k tau)).take N =
        List.insertionSort rankRel (srSurvivingSupports df k tau) :=
      List.take_of_length_le (by
        rw [List.length_insertionSort]
        exact hlen)
    rw [heq]
    exact List.perm_insertionSort rankRel _
  · intro hlen
    rw [identify_support_resistance]
    have heq : (List.insertionSort rankRel
        (srSurvivingResistances df k tau)).take N =
        List.insertionSort rankRel (srSurvivingResistances df k tau) :=
      List.take_of_length_le (by
        rw [List.length_insertionSort]
        exact hlen)
    rw [heq]
    exact List.perm_insertionSort rankRel _

/-- C9: the Technical Analysis Summary's level read-out is well-defined
exactly when both sides returned by the detector are non-empty; if either
side is empty the `support[0]`/`resistance[0]` indexing fails. -/
theorem tech_summary_requires_levels (df : List OHLCV) :
    (techSummarySR df).isSome = true ↔
      ((identify_support_resistance df 5 (1 / 100) 3).1 ≠ [] ∧
       (identify_support_resistance df 5 (1 / 100) 3).2 ≠ []) := by
  rw [techSummarySR]
  rcases hsr : identify_support_resistance df 5 (1 / 100) 3 with ⟨s, r⟩
  cases s <;> cases r <;> simp

/-- C10: `plot_with_indicators` draws at most 3 support and at most 3
resistance lines: whatever lists the detector returns, the call site
truncates each with `[:3]`. -/
theorem plot_sr_truncation (support resistance : List Level) :
    (plotSRLines support resistance).1.length ≤ 3 ∧
    (plotSRLines support resistance).2.length ≤ 3 ∧
    (plotSRLines support resistance).1 =
      (support.take 3).map Level.value ∧
    (plotSRLines support resistance).2 =
      (resistance.take 3).map Level.value := by
  refine ⟨?_, ?_, rfl, rfl⟩ <;>
    simp [plotSRLines, List.length_take]

/-- C1 (witness): the detector theorem evaluated on `demoDF` with pivot
lookback 1: the returned support (value 90, strength 1, last touch 1)
lies below the current close 100, the returned resistance (value 110)
above it, and with a single surviving cluster per side the returned side
is exactly the survivors. -/
theorem sr_levels_spec_witness :
    (Level.mk .support 90 1 1).value < currentClose demoDF ∧
    currentClose demoDF < (Level.mk .resistance 110 1 2).value ∧
    (identify_support_resistance demoDF 1 (1 / 100) 3).1.Perm
      (srSurvivingSupports demoDF 1 (1 / 100)) := by
  have hev : identify_support_resistance demoDF 1 (1 / 100) 3 =
      ([⟨.support, 90, 1, 1⟩], [⟨.resistance, 110, 1, 2⟩]) := by
    norm_num [identify_support_resistance, srSurvivingSupports,
      srSurvivingResistances, srSupportLevels, srResistanceLevels,
      swingLowCands, swingHighCands, isSwingHigh, isSwingLow, clustersOf,
      clusterGo, clusterLevel, Cluster.mean, Cluster.single, currentClose,
      demoDF, List.insertionSort, List.orderedInsert, priceOrder, rankRel,
      List.range_succ, List.filterMap_cons, List.forall_mem_cons,
      List.filter_cons, List.getD_cons_zero, List.getD_cons_succ]
  have hsup : srSurvivingSupports demoDF 1 (1 / 100) =
      [⟨.support, 90, 1, 1⟩] := by
    norm_num [srSurvivingSupports, srSupportLevels, swingLowCands,
      isSwingLow, clustersOf, clusterGo, clusterLevel, Cluster.mean,
      Cluster.single, currentClose, demoDF, List.insertionSort,
      List.orderedInsert, priceOrder, List.range_succ, List.filterMap_cons,
      List.forall_mem_cons, List.filter_cons, List.getD_cons_zero,
      List.getD_cons_succ]
  have h := sr_levels_spec demoDF 1 (1 / 100) 3
  refine ⟨h.1 _ ?_, h.2.1 _ ?_, h.2.2.2.2.2.2.1 ?_⟩
  · rw [hev]
    simp
  · rw [hev]
    simp
  · rw [hsup]
    norm_num

/-- C9 (witness): on the empty series the detector returns two empty
sides, so the summary's level read-out fails (is `none`). -/
theorem tech_summary_requires_levels_witness :
    (techSummarySR []).isSome = false := by
  have h := tech_summary_requires_levels []
  have hev : identify_support_resistance [] 5 (1 / 100) 3 = ([], []) := rfl
  rw [hev] at h
  cases hb : (techSummarySR []).isSome with
  | false => rfl
  | true => exact absurd (h.mp hb).1 (by simp)

/-- C5 (counterexample): the band ordering fails for a negative
multiplier.  At `closes = [1, 2]`, `w = 2`, `k = -2` the defined
position 1 has middle `3/2` (the SMA), variance `1/4`, and with the
square root `1/4` the bands come out `upper = 1` and `lower = 2`, so
`lower ≤ middle ≤ upper` is violated — the claim cannot hold for every
multiplier, only for nonnegative ones. -/
theorem bollinger_neg_multiplier_cex :
    calculate_bollinger_bands demoSqrt [(1 : ℚ), 2] 2 (-2) =
      .ok (bollingerUpper demoSqrt [(1 : ℚ), 2] (Int.toNat 2) (-2),
        smaCore [(1 : ℚ), 2] (Int.toNat 2),
        bollingerLower demoSqrt [(1 : ℚ), 2] (Int.toNat 2) (-2)) ∧
    (smaCore [(1 : ℚ), 2] (Int.toNat 2))[1]? = some (some (3 / 2)) ∧
    (bollingerUpper demoSqrt [(1 : ℚ), 2] (Int.toNat 2) (-2))[1]? =
      some (some 1) ∧
    (bollingerLower demoSqrt [(1 : ℚ), 2] (Int.toNat 2) (-2))[1]? =
      some (some 2) ∧
    ¬ ((3 : ℚ) / 2 ≤ 1) ∧ ¬ ((2 : ℚ) ≤ 3 / 2) := by
  refine ⟨rfl, ?_, ?_, ?_, by norm_num, by norm_num⟩
  · norm_num [smaCore, smaAt, windowAt, mean, List.range_succ,
      show Int.toNat 2 = 2 from rfl]
  · norm_num [bollingerUpper, smaAt, windowAt, mean, rollingVarAt,
      demoSqrt, max_def, List.range_succ, show Int.toNat 2 = 2 from rfl]
  · norm_num [bollingerLower, smaAt, windowAt, mean, rollingVarAt,
      demoSqrt, max_def, List.range_succ, show Int.toNat 2 = 2 from rfl]
